import Mathlib

/-!
A verification development for the journal article scrapper script
(`scrapper.py`).  The file shallowly embeds the pieces of the script the
specification talks about: the text / date extraction of `HTMLParser`,
`Crawler._extract_url`, `CrawlerRecursive.crawl` and
`CrawlerRecursive.find_articles`, `load_scrapped_urls`, and the article id
assignment of the main block.  External capabilities (HTTP fetching, HTML
parsing, `urllib.parse.urljoin`, the constants module) are modelled as
explicit parameters.  Theorems at the end check the specification's claims.
-/

/-! ## Python string primitives -/

/-- Python `str.split(sep)` for a nonempty `sep`, on character lists.  The
`skip` counter consumes the remaining characters of a separator occurrence
that has already been recognised; entry point is `pySplit` (skip `0`). -/
def pySplitGo (sep : List Char) : List Char → Nat → List (List Char)
  | [], _ => [[]]
  | _ :: rest, skip + 1 => pySplitGo sep rest skip
  | c :: rest, 0 =>
    if sep ≠ [] ∧ sep.isPrefixOf (c :: rest) then
      [] :: pySplitGo sep rest (sep.length - 1)
    else
      match pySplitGo sep rest 0 with
      | [] => [[c]]
      | seg :: segs => (c :: seg) :: segs

/-- Python `text.split(sep)` (nonempty separator). -/
def pySplit (sep s : List Char) : List (List Char) := pySplitGo sep s 0

/-- Python substring membership `needle in hay` (for nonempty strings this
is a scan of every position for a prefix match). -/
def listContains (needle : List Char) : List Char → Bool
  | [] => needle.isEmpty
  | c :: rest => needle.isPrefixOf (c :: rest) || listContains needle rest

/-- Python `needle in hay` on strings. -/
def strContains (hay needle : String) : Bool := listContains needle.data hay.data

theorem isPrefixOf_exists (p : List Char) :
    ∀ s, p.isPrefixOf s = true → ∃ t, s = p ++ t := by
  induction p with
  | nil => exact fun s _ => ⟨s, rfl⟩
  | cons a as ih =>
    intro s h
    cases s with
    | nil => simp [List.isPrefixOf] at h
    | cons b bs =>
      simp only [List.isPrefixOf, Bool.and_eq_true, beq_iff_eq] at h
      obtain ⟨t, ht⟩ := ih bs h.2
      exact ⟨t, by rw [← h.1, ht]; rfl⟩

theorem pySplitGo_ne_nil (sep : List Char) :
    ∀ s k, pySplitGo sep s k ≠ [] := by
  intro s
  induction s with
  | nil => intro k; simp [pySplitGo]
  | cons c rest ih =>
    intro k
    cases k with
    | succ k => simpa [pySplitGo] using ih k
    | zero =>
      by_cases h : sep ≠ [] ∧ sep.isPrefixOf (c :: rest)
      · simp [pySplitGo, h]
      · have h2 := ih 0
        simp only [pySplitGo, if_neg h]
        cases heq : pySplitGo sep rest 0 with
        | nil => exact absurd heq h2
        | cons seg segs => simp

theorem pySplitGo_skip (sep : List Char) :
    ∀ s k, pySplitGo sep s k = pySplitGo sep (s.drop k) 0 := by
  intro s
  induction s with
  | nil => intro k; simp [pySplitGo]
  | cons c rest ih =>
    intro k
    cases k with
    | zero => rfl
    | succ k => simpa [pySplitGo] using ih k

theorem intercalate_single (sep a : List Char) :
    List.intercalate sep [a] = a := by
  simp [List.intercalate]

theorem intercalate_two (sep a b : List Char) (l : List (List Char)) :
    List.intercalate sep (a :: b :: l) = a ++ sep ++ List.intercalate sep (b :: l) := by
  simp [List.intercalate, List.append_assoc]

/-- The split segments reconstruct the original string when re-interleaved
with the separator. -/
theorem pySplit_intercalate (sep : List Char) (hsep : sep ≠ []) :
    ∀ (n : Nat) (s : List Char), s.length ≤ n →
      List.intercalate sep (pySplit sep s) = s := by
  intro n
  induction n with
  | zero =>
    intro s hs
    have : s = [] := List.length_eq_zero.mp (Nat.le_zero.mp hs)
    subst this
    simp [pySplit, pySplitGo, intercalate_single]
  | succ n ih =>
    intro s hs
    cases s with
    | nil => simp [pySplit, pySplitGo, intercalate_single]
    | cons c rest =>
      by_cases hp : sep.isPrefixOf (c :: rest)
      · have hcond : sep ≠ [] ∧ sep.isPrefixOf (c :: rest) := ⟨hsep, hp⟩
        obtain ⟨t, ht⟩ := isPrefixOf_exists sep (c :: rest) hp
        obtain ⟨m, hm⟩ : ∃ m, sep.length = m + 1 := by
          cases hsl : sep.length with
          | zero => exact absurd (List.length_eq_zero.mp hsl) hsep
          | succ m => exact ⟨m, rfl⟩
        have hdrop : rest.drop (sep.length - 1) = t := by
          have : (sep ++ t).drop sep.length = t := List.drop_left _ _
          calc rest.drop (sep.length - 1)
              = (c :: rest).drop sep.length := by rw [hm]; rfl
            _ = (sep ++ t).drop sep.length := by rw [← ht]
            _ = t := this
        have hlen : t.length ≤ n := by
          have h1 : rest.length ≤ n := by
            have := hs
            simpa [Nat.succ_le_succ_iff] using this
          calc t.length = (rest.drop (sep.length - 1)).length := by rw [hdrop]
            _ ≤ rest.length := by rw [List.length_drop]; omega
            _ ≤ n := h1
        have hrec := ih t hlen
        have hgo : pySplit sep (c :: rest) = [] :: pySplit sep t := by
          simp only [pySplit, pySplitGo, if_pos hcond]
          rw [pySplitGo_skip sep rest (sep.length - 1), hdrop]
        rw [hgo]
        cases hsp : pySplit sep t with
        | nil => exact absurd hsp (pySplitGo_ne_nil sep t 0)
        | cons seg segs =>
          rw [intercalate_two]
          rw [← hsp, hrec, ht]
          simp
      · have hcond : ¬ (sep ≠ [] ∧ sep.isPrefixOf (c :: rest)) := by
          intro hc; exact hp hc.2
        have h1 : rest.length ≤ n := by simpa [Nat.succ_le_succ_iff] using hs
        have hrec := ih rest h1
        cases hsp : pySplit sep rest with
        | nil => exact absurd hsp (pySplitGo_ne_nil sep rest 0)
        | cons seg segs =>
          have hgo : pySplit sep (c :: rest) = (c :: seg) :: segs := by
            simp only [pySplit, pySplitGo, if_neg hcond]
            rw [show pySplitGo sep rest 0 = seg :: segs from hsp]
          rw [hgo]
          cases segs with
          | nil =>
            rw [intercalate_single]
            have : List.intercalate sep [seg] = rest := by rw [← hsp]; exact hrec
            rw [intercalate_single] at this
            rw [this]
          | cons x xs =>
            rw [intercalate_two]
            have : List.intercalate sep (seg :: x :: xs) = rest := by
              rw [← hsp]; exact hrec
            rw [intercalate_two] at this
            simp only [List.cons_append, List.append_assoc] at this ⊢
            rw [this]

/-- A string with no occurrence of the separator splits into a single
segment. -/
theorem pySplit_no_occ (sep : List Char) :
    ∀ s, listContains sep s = false → pySplit sep s = [s] := by
  intro s
  induction s with
  | nil =>
    intro h
    simp only [listContains, List.isEmpty_iff] at h
    simp [pySplit, pySplitGo]
  | cons c rest ih =>
    intro h
    simp only [listContains, Bool.or_eq_false_iff] at h
    have hrec := ih h.2
    have hcond : ¬ (sep ≠ [] ∧ sep.isPrefixOf (c :: rest)) := by
      intro hc
      rw [h.1] at hc
      exact Bool.false_ne_true hc.2
    simp only [pySplit, pySplitGo, if_neg hcond]
    rw [show pySplitGo sep rest 0 = [rest] from hrec]

/-! ## `HTMLParser._fill_article_with_text` -/

/-- The literal references marker used by `_fill_article_with_text`. -/
def referencesMarker : List Char := "Список литературы".data

/-- The references marker as a string. -/
def referencesMarkerStr : String := "Список литературы"

/-- Embedding of `HTMLParser._fill_article_with_text` applied to the text
extracted from the PDF: `parts_of_article = text.split('Список литературы');
self.article.text = ''.join(parts_of_article[:-1])`. -/
def fill_article_text (text : String) : String :=
  ⟨((pySplit referencesMarker text.data).dropLast).flatten⟩

/-- Modelled from the spec: the text preceding the final occurrence of a
pattern (`none` when the pattern does not occur).  Used to compare the
code's behaviour with the spec's words "all text before the final
occurrence of that marker". -/
def textBeforeLastOcc (pat : List Char) : List Char → Option (List Char)
  | [] => none
  | c :: rest =>
    match textBeforeLastOcc pat rest with
    | some pre => some (c :: pre)
    | none => if pat.isPrefixOf (c :: rest) then some [] else none

/-- A concrete text containing the references marker twice. -/
def doubleMarkerText : String := "AСписок литературыBСписок литературыC"

/-- Claim C7 (counterexample): on a text containing the marker twice, the
stored body is not the text preceding the final occurrence of the marker
(the code joins the segments with the empty string, so the earlier marker
occurrence is deleted as well): the body is "AB", not
"AСписок литературыB". -/
theorem c7_text_before_last_counterexample :
    textBeforeLastOcc referencesMarker doubleMarkerText.data =
      some ("AСписок литературыB".data) ∧
    fill_article_text doubleMarkerText ≠ "AСписок литературыB" ∧
    fill_article_text doubleMarkerText = "AB" := by
  refine ⟨by decide, by decide, by decide⟩

/-- Claim C7 (amended): the stored body is the concatenation of all
marker-split segments except the last — the segments being a genuine
decomposition of the text, reconstructing it when re-interleaved with the
marker — i.e. all text before the final marker occurrence but with every
earlier occurrence of the marker itself removed; in particular a text
containing the marker twice keeps the text around the first occurrence but
drops that first marker, yielding "AB". -/
theorem c7_body_joins_leading_segments (t : String) :
    List.intercalate referencesMarker (pySplit referencesMarker t.data) = t.data ∧
    (fill_article_text t).data = ((pySplit referencesMarker t.data).dropLast).flatten ∧
    fill_article_text doubleMarkerText = "AB" := by
  refine ⟨?_, rfl, by decide⟩
  exact pySplit_intercalate referencesMarker (by decide) t.data.length t.data (Nat.le_refl _)

/-- Claim C10: a text with no occurrence of the references marker loses its
entire body: the split yields one segment, `[:-1]` discards it, and the
join of nothing is the empty string. -/
theorem c10_no_marker_empty_body (t : String)
    (h : strContains t referencesMarkerStr = false) :
    fill_article_text t = "" := by
  have : pySplit referencesMarker t.data = [t.data] := by
    apply pySplit_no_occ
    exact h
  simp [fill_article_text, this]

/-- Claim C10 witness: a concrete marker-free text maps to the empty body. -/
theorem c10_no_marker_empty_body_witness :
    strContains "Статья без раздела литературы" referencesMarkerStr = false ∧
    fill_article_text "Статья без раздела литературы" = "" :=
  ⟨by decide, c10_no_marker_empty_body "Статья без раздела литературы" (by decide)⟩

/-! ## `HTMLParser._fill_article_with_meta_information` — date extraction -/

/-- Python regex class `\s` (whitespace), restricted to the ASCII
whitespace characters. -/
def isPySpace (c : Char) : Bool :=
  c = ' ' || c = '\t' || c = '\n' || c = '\r' || c = '\x0b' || c = '\x0c'

/-- A calendar date as produced by `datetime.strptime(_, '%d.%m.%Y')`. -/
structure PyDate where
  year : Nat
  month : Nat
  day : Nat
deriving DecidableEq

/-- Gregorian leap year test, as used by `datetime`. -/
def isLeapYear (y : Nat) : Bool :=
  y % 4 = 0 && (y % 100 ≠ 0 || y % 400 = 0)

/-- Days in a month, as validated by `datetime`. -/
def daysInMonth (y m : Nat) : Nat :=
  if m = 2 then (if isLeapYear y then 29 else 28)
  else if m = 4 || m = 6 || m = 9 || m = 11 then 30 else 31

/-- `datetime.strptime(s, '%d.%m.%Y')` after the digits have been read:
returns the date, or an error (`ValueError`) when the numbers do not form a
real calendar date. -/
def strptime_dmY (d m y : Nat) : Except Unit PyDate :=
  if 1 ≤ y && y ≤ 9999 && 1 ≤ m && m ≤ 12 && 1 ≤ d && d ≤ daysInMonth y m then
    .ok ⟨y, m, d⟩
  else .error ()

/-- Numeric value of an ASCII digit. -/
def digitVal (c : Char) : Nat := c.toNat - 48

/-- Regex `\d{2}\.\d{2}\.\d{4}` matched at the start of the character list,
returning day, month and year components. -/
def matchDateAt : List Char → Option (Nat × Nat × Nat)
  | d1 :: d2 :: p1 :: m1 :: m2 :: p2 :: y1 :: y2 :: y3 :: y4 :: _ =>
    if d1.isDigit && d2.isDigit && p1 = '.' && m1.isDigit && m2.isDigit &&
       p2 = '.' && y1.isDigit && y2.isDigit && y3.isDigit && y4.isDigit then
      some (10 * digitVal d1 + digitVal d2,
            10 * digitVal m1 + digitVal m2,
            1000 * digitVal y1 + 100 * digitVal y2 + 10 * digitVal y3 + digitVal y4)
    else none
  | _ => none

/-- Regex `re.search(r'\d{2}\.\d{2}\.\d{4}', s)`: first position with a
date match. -/
def searchDate : List Char → Option (Nat × Nat × Nat)
  | [] => none
  | c :: rest =>
    match matchDateAt (c :: rest) with
    | some r => some r
    | none => searchDate rest

/-- The received-by-editor phrase literal of the date regex. -/
def receivedPhrase : List Char := "Поступила в редакцию".data

/-- Regex `Поступила в редакцию\s+\d{2}\.\d{2}\.\d{4}` matched at the start
of the character list, returning the matched substring (`group(0)`).  The
greedy `\s+` is a maximal munch: a digit is not a whitespace character, so
backtracking can never produce a different match. -/
def matchPhraseAt (s : List Char) : Option (List Char) :=
  if receivedPhrase.isPrefixOf s then
    let rest := s.drop receivedPhrase.length
    let sp := rest.takeWhile isPySpace
    if sp.isEmpty then none
    else
      let rest2 := rest.drop sp.length
      match matchDateAt rest2 with
      | some _ => some (receivedPhrase ++ sp ++ rest2.take 10)
      | none => none
  else none

/-- `re.search` for the received-by-editor date pattern: first position
with a match, returning the matched substring. -/
def searchPhrase : List Char → Option (List Char)
  | [] => none
  | c :: rest =>
    match matchPhraseAt (c :: rest) with
    | some m => some m
    | none => searchPhrase rest

/-- Whether the stripped body text contains the received-by-editor phrase
followed by a `DD.MM.YYYY` date. -/
def hasDatePhrase (t : String) : Bool := (searchPhrase t.data).isSome

/-- Embedding of the date extraction part of
`HTMLParser._fill_article_with_meta_information`:
`text_date = re.search(r'Поступила в редакцию\s+\d{2}\.\d{2}\.\d{4}', text)`
(`None` makes the following `.group(0)` raise, an extraction error), then
`date_re = re.search(r'\d{2}\.\d{2}\.\d{4}', text_date.group(0))`, then
`datetime.strptime(date_re.group(0), '%d.%m.%Y')`. -/
def fill_article_date (text : String) : Except Unit PyDate :=
  match searchPhrase text.data with
  | none => .error ()
  | some m =>
    match searchDate m with
    | none => .error ()
    | some (d, mo, y) => strptime_dmY d mo y

/-- A concrete article body containing the date phrase of the claim. -/
def dateExampleText : String :=
  "Текст статьи о науке. Поступила в редакцию   04.03.2021. Конец."

/-- Claim C8: a body text containing the phrase
`Поступила в редакцию   04.03.2021` yields the calendar date 2021-03-04
(parsed day.month.year); and any body text in which the received-by-editor
phrase followed by a `DD.MM.YYYY` date is absent makes the extraction fail
with an extraction error. -/
theorem c8_date_extraction (t : String) (habsent : hasDatePhrase t = false) :
    fill_article_date dateExampleText = .ok ⟨2021, 3, 4⟩ ∧
    fill_article_date t = .error () := by
  constructor
  · rfl
  · simp only [hasDatePhrase, Option.isSome] at habsent
    unfold fill_article_date
    cases h : searchPhrase t.data with
    | none => rfl
    | some m => rw [h] at habsent; simp at habsent

/-- Claim C8 witness: the concrete positive text parses to 2021-03-04, and
a concrete phrase-free text raises the extraction error. -/
theorem c8_date_extraction_witness :
    hasDatePhrase "Дата не указана." = false ∧
    (fill_article_date dateExampleText = .ok ⟨2021, 3, 4⟩ ∧
     fill_article_date "Дата не указана." = .error ()) :=
  ⟨by decide, c8_date_extraction "Дата не указана." (by decide)⟩

/-! ## Crawler data model -/

/-- Modelled from the spec: the constants module (`DOMAIN_URL`, `ROOT_URL`,
`RUSSIAN_ROOT_URL` imported from `constants`) is not part of the source
tree; the spec describes them as the configured domain, the root-domain
substring and the Russian-language partition of the site. -/
structure Consts where
  domain_url : String
  root_url : String
  russian_root_url : String

/-- A parsed HTML document, as seen through the two BeautifulSoup queries
the code runs: `find_all('a')` over the whole page (`anchors`, with `none`
for an `<a>` lacking an `href` attribute) and the hrefs of the `<a>`
elements inside `<tr class="unnrow">` rows, row by row (`unnrow_links`). -/
structure Page where
  anchors : List (Option String)
  unnrow_links : List (List (Option String))

/-- External capabilities: `requests.get` (`.error` models a raised network
exception; a non-success HTTP status still yields a parsed page) and
`urllib.parse.urljoin`. -/
structure Env where
  fetch : String → Except Unit Page
  urljoin : String → String → String

/-- The mutable fields of a `CrawlerRecursive` object. -/
structure CrawlState where
  urls : List String
  crawled_urls : List String
  seed_urls : List String
deriving DecidableEq

/-- How an invocation of `crawl` ended: normal return, a propagating
network exception from `requests.get`, a propagating `KeyError` raised by
`_extract_url` on an `<a>` without `href`, or Python stack exhaustion
(modelled by the fuel running out). -/
inductive Outcome where
  | ok
  | netError
  | keyError
  | stackOverflow
deriving DecidableEq

/-- Python `re.match` against `^http://|^https://`, i.e. a prefix test. -/
def strStartsWith (s p : String) : Bool := p.data.isPrefixOf s.data

/-- Embedding of `absolute_url_structure_is_valid`. -/
def absolute_url_structure_is_valid (c : Consts) (url_to_check : String) : Bool :=
  if ¬ (strStartsWith url_to_check "http://" || strStartsWith url_to_check "https://")
     || ¬ strContains url_to_check c.root_url then
    false
  else
    true

/-- The loop of `Crawler._extract_url` over the collected row links:
`overall` is `overall_urls_count`, `acc` is the local `urls` list,
`already` is `self.urls`.  The loop breaks before looking at a link once
one more article would exceed `max_articles`; a link without `href` raises
an uncaught `KeyError` (`.error`). -/
def extractLoop (c : Consts) (B : Nat) (already : List String) :
    List (Option String) → List String → Nat → Except Unit (List String)
  | [], acc, _ => .ok acc
  | linkOpt :: rest, acc, overall =>
    if overall + 1 > B then .ok acc
    else
      match linkOpt with
      | none => .error ()
      | some href =>
        if ¬ strStartsWith href "?anum" then extractLoop c B already rest acc overall
        else if (c.domain_url ++ href) ∉ already ∧ (c.domain_url ++ href) ∉ acc then
          extractLoop c B already rest (acc ++ [c.domain_url ++ href]) (overall + 1)
        else
          extractLoop c B already rest acc overall

/-- Embedding of `Crawler._extract_url`: flatten the `<a>` elements of the
numbered rows, keep hrefs matching `^\?anum`, resolve them against
`DOMAIN_URL`, deduplicate against `self.urls` and the current call, and
stop once the combined count reaches `max_articles`. -/
def extract_url (c : Consts) (B : Nat) (page : Page) (already : List String) :
    Except Unit (List String) :=
  extractLoop c B already page.unnrow_links.flatten [] already.length

/-- Relative link resolution of the crawl loop: a link already carrying an
http/https scheme is kept, anything else goes through
`urljoin(url_to_crawl, link)`. -/
def resolveLink (env : Env) (cur link0 : String) : String :=
  if strStartsWith link0 "http://" || strStartsWith link0 "https://" then link0
  else env.urljoin cur link0

/-- The `for link_bs in links_bs` loop body of `CrawlerRecursive.crawl`,
parameterised by the recursive call (`recurse`, i.e. `self.crawl` one stack
frame deeper).  Returns the final object state, the list of URLs passed to
`requests.get` in order, and how the loop ended (a non-`ok` outcome of a
nested call propagates, aborting the loop, exactly as a raised Python
exception would). -/
def crawlLinksF (c : Consts) (env : Env) (B : Nat)
    (recurse : String → CrawlState → CrawlState × List String × Outcome)
    (cur : String) :
    List (Option String) → CrawlState → CrawlState × List String × Outcome
  | [], s => (s, [], .ok)
  | linkOpt :: rest, s =>
    match linkOpt with
    | none => crawlLinksF c env B recurse cur rest s
    | some link0 =>
      if link0 = "" then crawlLinksF c env B recurse cur rest s
      else if absolute_url_structure_is_valid c (resolveLink env cur link0) = false then
        crawlLinksF c env B recurse cur rest s
      else if strContains (resolveLink env cur link0) c.russian_root_url = false
              ∨ strContains (resolveLink env cur link0) "eng" = true then
        crawlLinksF c env B recurse cur rest s
      else if resolveLink env cur link0 ∈ s.crawled_urls then
        crawlLinksF c env B recurse cur rest s
      else if strContains (resolveLink env cur link0) "?jnum=" then
        match env.fetch (resolveLink env cur link0) with
        | .error _ =>
          (⟨s.urls, s.crawled_urls ++ [resolveLink env cur link0],
            s.seed_urls ++ [resolveLink env cur link0]⟩,
           [resolveLink env cur link0], .netError)
        | .ok page =>
          match extract_url c B page s.urls with
          | .error _ =>
            (⟨s.urls, s.crawled_urls ++ [resolveLink env cur link0],
              s.seed_urls ++ [resolveLink env cur link0]⟩,
             [resolveLink env cur link0], .keyError)
          | .ok newUrls =>
            if (s.urls ++ newUrls).length + 1 > B then
              (⟨s.urls ++ newUrls, s.crawled_urls ++ [resolveLink env cur link0],
                s.seed_urls ++ [resolveLink env cur link0]⟩,
               [resolveLink env cur link0], .ok)
            else
              ((crawlLinksF c env B recurse cur rest
                  ⟨s.urls ++ newUrls, s.crawled_urls ++ [resolveLink env cur link0],
                   s.seed_urls ++ [resolveLink env cur link0]⟩).1,
               resolveLink env cur link0 ::
                 (crawlLinksF c env B recurse cur rest
                   ⟨s.urls ++ newUrls, s.crawled_urls ++ [resolveLink env cur link0],
                    s.seed_urls ++ [resolveLink env cur link0]⟩).2.1,
               (crawlLinksF c env B recurse cur rest
                 ⟨s.urls ++ newUrls, s.crawled_urls ++ [resolveLink env cur link0],
                  s.seed_urls ++ [resolveLink env cur link0]⟩).2.2)
      else
        if (recurse (resolveLink env cur link0)
              ⟨s.urls, s.crawled_urls ++ [resolveLink env cur link0], s.seed_urls⟩).2.2 =
            Outcome.ok then
          ((crawlLinksF c env B recurse cur rest
              (recurse (resolveLink env cur link0)
                ⟨s.urls, s.crawled_urls ++ [resolveLink env cur link0], s.seed_urls⟩).1).1,
           (recurse (resolveLink env cur link0)
              ⟨s.urls, s.crawled_urls ++ [resolveLink env cur link0], s.seed_urls⟩).2.1 ++
             (crawlLinksF c env B recurse cur rest
               (recurse (resolveLink env cur link0)
                 ⟨s.urls, s.crawled_urls ++ [resolveLink env cur link0], s.seed_urls⟩).1).2.1,
           (crawlLinksF c env B recurse cur rest
             (recurse (resolveLink env cur link0)
               ⟨s.urls, s.crawled_urls ++ [resolveLink env cur link0], s.seed_urls⟩).1).2.2)
        else
          recurse (resolveLink env cur link0)
            ⟨s.urls, s.crawled_urls ++ [resolveLink env cur link0], s.seed_urls⟩

/-- Embedding of `CrawlerRecursive.crawl`: return immediately once one more
article would exceed the budget, otherwise fetch the page (a raised network
exception propagates) and walk its links; the fuel is the remaining Python
stack depth. -/
def crawl (c : Consts) (env : Env) (B : Nat) :
    Nat → String → CrawlState → CrawlState × List String × Outcome
  | 0, _, s => (s, [], .stackOverflow)
  | fuel + 1, url_to_crawl, s =>
    if s.urls.length + 1 > B then (s, [], .ok)
    else
      match env.fetch url_to_crawl with
      | .error _ => (s, [url_to_crawl], .netError)
      | .ok page =>
        ((crawlLinksF c env B (crawl c env B fuel) url_to_crawl page.anchors s).1,
         url_to_crawl ::
           (crawlLinksF c env B (crawl c env B fuel) url_to_crawl page.anchors s).2.1,
         (crawlLinksF c env B (crawl c env B fuel) url_to_crawl page.anchors s).2.2)

/-! ## `load_scrapped_urls` and the main block -/

/-- Index of the last `'.'` in a character list, if any. -/
def lastDotIdx : List Char → Option Nat
  | [] => none
  | c :: rest =>
    match lastDotIdx rest with
    | some i => some (i + 1)
    | none => if c = '.' then some 0 else none

/-- `pathlib.PurePath.suffix`: the extension from the last dot on, present
only when the last dot is neither the first nor the last character. -/
def pathSuffix (name : String) : String :=
  match lastDotIdx name.data with
  | none => ""
  | some i => if 0 < i ∧ i + 1 < name.data.length then ⟨name.data.drop i⟩ else ""

/-- `pathlib.PurePath.stem`: the name up to the last dot (under the same
condition as `pathSuffix`). -/
def pathStem (name : String) : String :=
  match lastDotIdx name.data with
  | none => name
  | some i => if 0 < i ∧ i + 1 < name.data.length then ⟨name.data.take i⟩ else name

/-- A file of the `ASSETS_PATH` directory.  `url` is the `url` field of the
JSON content for metadata files; it is ignored for other files.  Modelled
from the spec for the part outside the source tree: `Article.save_raw`
(from `core_utils`) persists one metadata JSON record and one raw PDF per
article, both named by the article's numeric id. -/
structure FsFile where
  name : String
  url : String
deriving DecidableEq

/-- Embedding of `load_scrapped_urls`: `none` models a missing
`ASSETS_PATH` directory; iteration order is the list order.  For each
`.json` file the code takes the FIRST CHARACTER of the stem (`stem[0]`) as
the article number and looks for `{number}_raw.pdf`. -/
def load_scrapped_urls (assets : Option (List FsFile)) : List String :=
  match assets with
  | none => []
  | some files =>
    files.foldl
      (fun acc f =>
        if pathSuffix f.name = ".json" then
          let number : String := ⟨(pathStem f.name).data.take 1⟩
          let pdfName := number ++ "_raw.pdf"
          if files.any (fun g => decide (g.name = pdfName)) then acc ++ [f.url]
          else acc
        else acc)
      []

/-- Embedding of `CrawlerRecursive.find_articles`: take the first seed
(`none` models the `IndexError` on an empty seed list), preload `self.urls`
with the previously scrapped URLs, crawl, and on a normal return drop the
preloaded prefix; a propagating exception skips the final slicing. -/
def find_articles (c : Consts) (env : Env) (B : Nat) (fuel : Nat)
    (seed_urls : List String) (assets : Option (List FsFile)) :
    Option (CrawlState × List String × Outcome) :=
  match seed_urls with
  | [] => none
  | start :: _ =>
    let urls0 := load_scrapped_urls assets
    let s0 : CrawlState := ⟨urls0, [], []⟩
    match crawl c env B fuel start s0 with
    | (s1, tr, .ok) =>
      some (⟨s1.urls.drop urls0.length, s1.crawled_urls, s1.seed_urls⟩, tr, .ok)
    | (s1, tr, .netError) => some (s1, tr, .netError)
    | (s1, tr, .keyError) => some (s1, tr, .keyError)
    | (s1, tr, .stackOverflow) => some (s1, tr, .stackOverflow)

/-- Embedding of the id assignment of the main block:
`for i, url in enumerate(crawler.urls): HTMLParser(url, i + len(pre_scrapped_urls) + 1)`. -/
def article_ids (pre : Nat) (frontier : List String) : List (String × Nat) :=
  frontier.enum.map (fun p => (p.2, p.1 + pre + 1))

/-- The ids the main block assigns, with `pre_scrapped_urls` read back by
`load_scrapped_urls`. -/
def main_assigned_ids (assets : Option (List FsFile)) (frontier : List String) :
    List (String × Nat) :=
  article_ids (load_scrapped_urls assets).length frontier

/-! ## Invariants of the extraction loop -/

theorem extractLoop_bound (c : Consts) (B : Nat) (already : List String) :
    ∀ (links : List (Option String)) (acc : List String) (overall : Nat)
      (acc' : List String),
      overall = already.length + acc.length →
      extractLoop c B already links acc overall = .ok acc' →
      already.length + acc'.length ≤ max B overall := by
  intro links
  induction links with
  | nil =>
    intro acc overall acc' hov h
    simp only [extractLoop] at h
    injection h with h
    subst h
    exact hov ▸ Nat.le_max_right B _
  | cons linkOpt rest ih =>
    intro acc overall acc' hov h
    cases linkOpt with
    | none =>
      simp only [extractLoop] at h
      by_cases hb : overall + 1 > B
      · rw [if_pos hb] at h
        injection h with h
        subst h
        exact hov ▸ Nat.le_max_right B _
      · rw [if_neg hb] at h
        exact Except.noConfusion h
    | some href =>
      simp only [extractLoop] at h
      by_cases hb : overall + 1 > B
      · rw [if_pos hb] at h
        injection h with h
        subst h
        exact hov ▸ Nat.le_max_right B _
      · rw [if_neg hb] at h
        by_cases ha : strStartsWith href "?anum" = true
        · rw [if_neg (not_not_intro ha)] at h
          by_cases hd : (c.domain_url ++ href) ∉ already ∧ (c.domain_url ++ href) ∉ acc
          · rw [if_pos hd] at h
            have hov1 : overall + 1 =
                already.length + (acc ++ [c.domain_url ++ href]).length := by
              rw [List.length_append]
              simp only [List.length_cons, List.length_nil]
              omega
            have hmain := ih _ _ _ hov1 h
            have hle : overall + 1 ≤ B := by omega
            rw [Nat.max_eq_left hle] at hmain
            exact le_trans hmain (Nat.le_max_left B overall)
          · rw [if_neg hd] at h
            exact ih _ _ _ hov h
        · rw [if_pos ha] at h
          exact ih _ _ _ hov h

theorem extractLoop_fresh (c : Consts) (B : Nat) (already : List String) :
    ∀ (links : List (Option String)) (acc : List String) (overall : Nat)
      (acc' : List String),
      extractLoop c B already links acc overall = .ok acc' →
      ∃ add, acc' = acc ++ add ∧ add.Nodup ∧ ∀ v ∈ add, v ∉ already ∧ v ∉ acc := by
  intro links
  induction links with
  | nil =>
    intro acc overall acc' h
    simp only [extractLoop] at h
    injection h with h
    subst h
    exact ⟨[], by simp, List.nodup_nil, by simp⟩
  | cons linkOpt rest ih =>
    intro acc overall acc' h
    cases linkOpt with
    | none =>
      simp only [extractLoop] at h
      by_cases hb : overall + 1 > B
      · rw [if_pos hb] at h
        injection h with h
        subst h
        exact ⟨[], by simp, List.nodup_nil, by simp⟩
      · rw [if_neg hb] at h
        exact Except.noConfusion h
    | some href =>
      simp only [extractLoop] at h
      by_cases hb : overall + 1 > B
      · rw [if_pos hb] at h
        injection h with h
        subst h
        exact ⟨[], by simp, List.nodup_nil, by simp⟩
      · rw [if_neg hb] at h
        by_cases ha : strStartsWith href "?anum" = true
        · rw [if_neg (not_not_intro ha)] at h
          by_cases hd : (c.domain_url ++ href) ∉ already ∧ (c.domain_url ++ href) ∉ acc
          · rw [if_pos hd] at h
            obtain ⟨add', hacc, hnd, hmem⟩ := ih _ _ _ h
            refine ⟨(c.domain_url ++ href) :: add', ?_, ?_, ?_⟩
            · rw [hacc, List.append_assoc]
              rfl
            · rw [List.nodup_cons]
              refine ⟨fun hin => ?_, hnd⟩
              exact (hmem _ hin).2 (by simp)
            · intro v hv
              rcases List.mem_cons.mp hv with hv | hv
              · subst hv
                exact hd
              · refine ⟨(hmem v hv).1, fun hva => ?_⟩
                exact (hmem v hv).2 (List.mem_append_left _ hva)
          · rw [if_neg hd] at h
            exact ih _ _ _ h
        · rw [if_pos ha] at h
          exact ih _ _ _ h

/-- `_extract_url` never pushes the combined URL count past the budget. -/
theorem extract_url_bound (c : Consts) (B : Nat) (page : Page)
    (already : List String) (newUrls : List String)
    (h : extract_url c B page already = .ok newUrls) :
    already.length + newUrls.length ≤ max B already.length := by
  have := extractLoop_bound c B already page.unnrow_links.flatten [] already.length
    newUrls (by simp) h
  simpa using this

/-- `_extract_url` only returns fresh, pairwise distinct URLs. -/
theorem extract_url_fresh (c : Consts) (B : Nat) (page : Page)
    (already : List String) (newUrls : List String)
    (h : extract_url c B page already = .ok newUrls) :
    newUrls.Nodup ∧ ∀ v ∈ newUrls, v ∉ already := by
  obtain ⟨add, hacc, hnd, hmem⟩ := extractLoop_fresh c B already
    page.unnrow_links.flatten [] already.length newUrls h
  simp only [List.nil_append] at hacc
  subst hacc
  exact ⟨hnd, fun v hv => (hmem v hv).1⟩

/-- With the budget already used up, `_extract_url` selects nothing. -/
theorem extract_url_stop (c : Consts) (B : Nat) (page : Page)
    (already : List String) (hB : B ≤ already.length) :
    extract_url c B page already = .ok [] := by
  unfold extract_url
  cases page.unnrow_links.flatten with
  | nil => rfl
  | cons l rest =>
    simp only [extractLoop]
    rw [if_pos (by omega)]

/-! ## Invariants of the recursive crawl -/

/-- Relation between a `CrawlerRecursive` state and a later state of the
same run: the frontier stays within `max` of the budget and its starting
size, it only grows by appending fresh pairwise-distinct URLs, and the
visited set only grows. -/
def StateStep (B : Nat) (s s' : CrawlState) : Prop :=
  s'.urls.length ≤ max B s.urls.length ∧
  (∃ add, s'.urls = s.urls ++ add ∧ add.Nodup ∧ ∀ v ∈ add, v ∉ s.urls) ∧
  (∀ v ∈ s.crawled_urls, v ∈ s'.crawled_urls)

/-- A fetch trace whose URLs are pairwise distinct, were unvisited when the
segment started and are visited when it ends. -/
def FreshTrace (tr : List String) (s s' : CrawlState) : Prop :=
  tr.Nodup ∧ ∀ v ∈ tr, v ∉ s.crawled_urls ∧ v ∈ s'.crawled_urls

theorem StateStep_refl (B : Nat) (s : CrawlState) : StateStep B s s :=
  ⟨Nat.le_max_right _ _, ⟨[], by simp, List.nodup_nil, by simp⟩, fun _ hv => hv⟩

theorem StateStep_trans {B : Nat} {s t r : CrawlState}
    (h1 : StateStep B s t) (h2 : StateStep B t r) : StateStep B s r := by
  obtain ⟨hl1, ⟨a1, ha1, hn1, hm1⟩, hc1⟩ := h1
  obtain ⟨hl2, ⟨a2, ha2, hn2, hm2⟩, hc2⟩ := h2
  refine ⟨?_, ⟨a1 ++ a2, ?_, ?_, ?_⟩, fun v hv => hc2 v (hc1 v hv)⟩
  · have hmax : max B t.urls.length ≤ max B s.urls.length :=
      Nat.max_le.mpr ⟨Nat.le_max_left _ _, hl1⟩
    exact le_trans hl2 hmax
  · rw [ha2, ha1, List.append_assoc]
  · rw [List.nodup_append]
    refine ⟨hn1, hn2, fun v hv1 hv2 => ?_⟩
    have hnot := hm2 v hv2
    rw [ha1] at hnot
    exact hnot (List.mem_append_right _ hv1)
  · intro v hv
    rcases List.mem_append.mp hv with hv | hv
    · exact hm1 v hv
    · have := hm2 v hv
      rw [ha1] at this
      exact fun hs => this (List.mem_append_left _ hs)

theorem FreshTrace_nil {s s' : CrawlState} : FreshTrace [] s s' :=
  ⟨List.nodup_nil, by simp⟩

theorem FreshTrace_append {tr1 tr2 : List String} {s t r : CrawlState}
    (hmono1 : ∀ v ∈ s.crawled_urls, v ∈ t.crawled_urls)
    (hmono2 : ∀ v ∈ t.crawled_urls, v ∈ r.crawled_urls)
    (h1 : FreshTrace tr1 s t) (h2 : FreshTrace tr2 t r) :
    FreshTrace (tr1 ++ tr2) s r := by
  obtain ⟨hn1, hm1⟩ := h1
  obtain ⟨hn2, hm2⟩ := h2
  constructor
  · rw [List.nodup_append]
    refine ⟨hn1, hn2, fun v hv1 hv2 => ?_⟩
    exact (hm2 v hv2).1 ((hm1 v hv1).2)
  · intro v hv
    rcases List.mem_append.mp hv with hv | hv
    · exact ⟨(hm1 v hv).1, hmono2 v (hm1 v hv).2⟩
    · exact ⟨fun hs => (hm2 v hv).1 (hmono1 v hs), (hm2 v hv).2⟩

/-- The invariant of the link loop: the state makes a `StateStep` and the
fetch trace is fresh. -/
def LinksInv (B : Nat) (s : CrawlState) (res : CrawlState × List String × Outcome) : Prop :=
  StateStep B s res.1 ∧ FreshTrace res.2.1 s res.1

/-- The invariant of one `crawl` invocation: the state makes a `StateStep`
and its trace is either empty or the crawled URL followed by a fresh
trace. -/
def CrawlInv (B : Nat) (url : String) (s : CrawlState)
    (res : CrawlState × List String × Outcome) : Prop :=
  StateStep B s res.1 ∧
  (res.2.1 = [] ∨ ∃ tr', res.2.1 = url :: tr' ∧ FreshTrace tr' s res.1)

theorem StateStep_of_urls_eq {B : Nat} {s s' : CrawlState} (hu : s'.urls = s.urls)
    (hc : ∀ v ∈ s.crawled_urls, v ∈ s'.crawled_urls) : StateStep B s s' :=
  ⟨by rw [hu]; exact Nat.le_max_right _ _,
   ⟨[], by rw [hu]; simp, List.nodup_nil, by simp⟩, hc⟩

theorem StateStep_extend {B : Nat} {s s' : CrawlState} {newUrls : List String}
    (hu : s'.urls = s.urls ++ newUrls)
    (hlen : s.urls.length + newUrls.length ≤ max B s.urls.length)
    (hnd : newUrls.Nodup) (hfresh : ∀ v ∈ newUrls, v ∉ s.urls)
    (hc : ∀ v ∈ s.crawled_urls, v ∈ s'.crawled_urls) : StateStep B s s' :=
  ⟨by rw [hu, List.length_append]; exact hlen, ⟨newUrls, hu, hnd, hfresh⟩, hc⟩

theorem FreshTrace_singleton {link : String} {s s' : CrawlState}
    (h1 : link ∉ s.crawled_urls) (h2 : link ∈ s'.crawled_urls) :
    FreshTrace [link] s s' := by
  refine ⟨List.nodup_singleton _, fun v hv => ?_⟩
  rw [List.mem_singleton] at hv
  subst hv
  exact ⟨h1, h2⟩

/-- A crawl trace taken from the state with `link` freshly inserted into
the visited set is a fresh trace from the pre-insertion state. -/
theorem FreshTrace_cons_of {link : String} {s s1 sA : CrawlState} {tr : List String}
    (hs1c : s1.crawled_urls = s.crawled_urls ++ [link])
    (hmemA : ∀ v ∈ s1.crawled_urls, v ∈ sA.crawled_urls)
    (hlink : link ∉ s.crawled_urls)
    (htr : tr = [] ∨ ∃ tr', tr = link :: tr' ∧ FreshTrace tr' s1 sA) :
    FreshTrace tr s sA := by
  rcases htr with htr | ⟨tr', htr, hnd, hmem⟩
  · subst htr
    exact FreshTrace_nil
  · subst htr
    have hlink1 : link ∈ s1.crawled_urls := by
      rw [hs1c]
      exact List.mem_append_right _ (List.mem_singleton_self _)
    constructor
    · rw [List.nodup_cons]
      refine ⟨fun hin => ?_, hnd⟩
      exact (hmem link hin).1 hlink1
    · intro v hv
      rcases List.mem_cons.mp hv with hv | hv
      · rw [hv]
        exact ⟨hlink, hmemA link hlink1⟩
      · refine ⟨fun hvs => (hmem v hv).1 ?_, (hmem v hv).2⟩
        rw [hs1c]
        exact List.mem_append_left _ hvs

theorem crawlLinksF_inv (c : Consts) (env : Env) (B : Nat)
    (recurse : String → CrawlState → CrawlState × List String × Outcome)
    (cur : String)
    (hrec : ∀ u t, CrawlInv B u t (recurse u t)) :
    ∀ (links : List (Option String)) (s : CrawlState),
      LinksInv B s (crawlLinksF c env B recurse cur links s) := by
  intro links
  induction links with
  | nil =>
    intro s
    exact ⟨StateStep_refl B s, FreshTrace_nil⟩
  | cons linkOpt rest ih =>
    intro s
    cases linkOpt with
    | none => exact ih s
    | some link0 =>
      simp only [crawlLinksF]
      by_cases h0 : link0 = ""
      · rw [if_pos h0]
        exact ih s
      rw [if_neg h0]
      by_cases hval : absolute_url_structure_is_valid c (resolveLink env cur link0) = false
      · rw [if_pos hval]
        exact ih s
      rw [if_neg hval]
      by_cases hlang : strContains (resolveLink env cur link0) c.russian_root_url = false
          ∨ strContains (resolveLink env cur link0) "eng" = true
      · rw [if_pos hlang]
        exact ih s
      rw [if_neg hlang]
      by_cases hvis : resolveLink env cur link0 ∈ s.crawled_urls
      · rw [if_pos hvis]
        exact ih s
      rw [if_neg hvis]
      by_cases hjnum : strContains (resolveLink env cur link0) "?jnum=" = true
      · rw [if_pos hjnum]
        split
        · refine ⟨StateStep_of_urls_eq rfl (fun v hv => List.mem_append_left _ hv), ?_⟩
          exact FreshTrace_singleton hvis
            (List.mem_append_right _ (List.mem_singleton_self _))
        · rename_i page hfe
          split
          · refine ⟨StateStep_of_urls_eq rfl (fun v hv => List.mem_append_left _ hv), ?_⟩
            exact FreshTrace_singleton hvis
              (List.mem_append_right _ (List.mem_singleton_self _))
          · rename_i newUrls hex
            have hstep : StateStep B s
                (⟨s.urls ++ newUrls,
                  s.crawled_urls ++ [resolveLink env cur link0],
                  s.seed_urls ++ [resolveLink env cur link0]⟩ : CrawlState) := by
              refine StateStep_extend rfl ?_ (extract_url_fresh c B page s.urls newUrls hex).1
                (extract_url_fresh c B page s.urls newUrls hex).2
                (fun v hv => List.mem_append_left _ hv)
              simpa using extract_url_bound c B page s.urls newUrls hex
            split
            · refine ⟨hstep, ?_⟩
              exact FreshTrace_singleton hvis
                (List.mem_append_right _ (List.mem_singleton_self _))
            · have hihs := ih (⟨s.urls ++ newUrls,
                s.crawled_urls ++ [resolveLink env cur link0],
                s.seed_urls ++ [resolveLink env cur link0]⟩ : CrawlState)
              refine ⟨StateStep_trans hstep hihs.1, ?_⟩
              have hsingle : FreshTrace [resolveLink env cur link0] s
                  (⟨s.urls ++ newUrls,
                    s.crawled_urls ++ [resolveLink env cur link0],
                    s.seed_urls ++ [resolveLink env cur link0]⟩ : CrawlState) :=
                FreshTrace_singleton hvis
                  (List.mem_append_right _ (List.mem_singleton_self _))
              have happ := FreshTrace_append hstep.2.2 hihs.1.2.2 hsingle hihs.2
              simpa using happ
      · rw [if_neg hjnum]
        have hrecL := hrec (resolveLink env cur link0)
          (⟨s.urls, s.crawled_urls ++ [resolveLink env cur link0], s.seed_urls⟩ : CrawlState)
        have hstep1 : StateStep B s
            (⟨s.urls, s.crawled_urls ++ [resolveLink env cur link0],
              s.seed_urls⟩ : CrawlState) :=
          StateStep_of_urls_eq rfl (fun v hv => List.mem_append_left _ hv)
        have hfresh1 : FreshTrace
            (recurse (resolveLink env cur link0)
              (⟨s.urls, s.crawled_urls ++ [resolveLink env cur link0],
                s.seed_urls⟩ : CrawlState)).2.1 s
            (recurse (resolveLink env cur link0)
              (⟨s.urls, s.crawled_urls ++ [resolveLink env cur link0],
                s.seed_urls⟩ : CrawlState)).1 :=
          FreshTrace_cons_of rfl hrecL.1.2.2 hvis hrecL.2
        by_cases hok : (recurse (resolveLink env cur link0)
            (⟨s.urls, s.crawled_urls ++ [resolveLink env cur link0],
              s.seed_urls⟩ : CrawlState)).2.2 = Outcome.ok
        · rw [if_pos hok]
          have hihs := ih (recurse (resolveLink env cur link0)
            (⟨s.urls, s.crawled_urls ++ [resolveLink env cur link0],
              s.seed_urls⟩ : CrawlState)).1
          refine ⟨StateStep_trans (StateStep_trans hstep1 hrecL.1) hihs.1, ?_⟩
          exact FreshTrace_append
            (fun v hv => hrecL.1.2.2 v (List.mem_append_left _ hv))
            hihs.1.2.2 hfresh1 hihs.2
        · rw [if_neg hok]
          exact ⟨StateStep_trans hstep1 hrecL.1, hfresh1⟩

theorem crawl_inv (c : Consts) (env : Env) (B : Nat) :
    ∀ (fuel : Nat) (url : String) (s : CrawlState),
      CrawlInv B url s (crawl c env B fuel url s) := by
  intro fuel
  induction fuel with
  | zero =>
    intro url s
    exact ⟨StateStep_refl B s, Or.inl rfl⟩
  | succ fuel ih =>
    intro url s
    simp only [crawl]
    by_cases hb : s.urls.length + 1 > B
    · rw [if_pos hb]
      exact ⟨StateStep_refl B s, Or.inl rfl⟩
    · rw [if_neg hb]
      cases hfe : env.fetch url with
      | error e =>
        exact ⟨StateStep_refl B s, Or.inr ⟨[], rfl, FreshTrace_nil⟩⟩
      | ok page =>
        have hl := crawlLinksF_inv c env B (crawl c env B fuel) url ih page.anchors s
        exact ⟨hl.1, Or.inr ⟨_, rfl, hl.2⟩⟩

/-! ## Concrete webs and directories used by witnesses and counterexamples -/

/-- Concrete values for the configured constants. -/
def siteConsts : Consts := ⟨"http://site.ru/rus/art", "site.ru", "site.ru/rus"⟩

/-- A concrete seed URL on the Russian partition of the site. -/
def seedUrl : String := "http://site.ru/rus/s"

/-- A web where every page parses to an empty document. -/
def emptyPageEnv : Env := ⟨fun _ => .ok ⟨[], []⟩, fun _ l => l⟩

/-- A web whose seed page links back to the seed itself. -/
def selfLoopEnv : Env :=
  ⟨fun u => if u = seedUrl then .ok ⟨[some seedUrl], []⟩ else .error (),
   fun _ l => l⟩

/-- A web where the seed links to an inner navigation page whose fetch
raises a network error, followed by an issue page carrying one article. -/
def innerFailEnv : Env :=
  ⟨fun u =>
    if u = seedUrl then
      .ok ⟨[some "http://site.ru/rus/a", some "http://site.ru/rus/b?jnum=1"], []⟩
    else if u = "http://site.ru/rus/b?jnum=1" then
      .ok ⟨[], [[some "?anum=7"]]⟩
    else .error (),
   fun _ l => l⟩

/-- A web where every fetch raises a network error. -/
def failEnv : Env := ⟨fun _ => .error (), fun _ l => l⟩

/-- An issue page exposing five valid article links in one numbered row. -/
def fiveLinkPage : Page :=
  ⟨[], [[some "?anum=1", some "?anum=2", some "?anum=3", some "?anum=4", some "?anum=5"]]⟩

/-- An assets directory with two fully persisted articles (ids 1 and 2). -/
def assetsTwo : Option (List FsFile) :=
  some [⟨"1_meta.json", "p1"⟩, ⟨"1_raw.pdf", ""⟩,
        ⟨"2_meta.json", "p2"⟩, ⟨"2_raw.pdf", ""⟩]

/-- An assets directory with one fully persisted article of id 10: both its
metadata record and its companion raw PDF are present. -/
def assetsTen : Option (List FsFile) :=
  some [⟨"10_meta.json", "u10"⟩, ⟨"10_raw.pdf", ""⟩]

/-! ## Claims about the crawler -/

/-- Claim C1: the frontier never exceeds the configured budget `B`:
`_extract_url` stops appending links once the count of already-held URLs
plus newly collected links would exceed `B` (first conjunct, and in
general the frontier never grows past `max B` of its current size, second
conjunct), `crawl` stops fetching and returns at once when the frontier
has reached `B` (third conjunct), and the frontier a completed
`find_articles` run returns has at most `B` URLs (fourth conjunct). -/
theorem c1_frontier_never_exceeds_budget (c : Consts) (env : Env) (B : Nat) :
    (∀ (page : Page) (already newUrls : List String),
       already.length ≤ B → extract_url c B page already = .ok newUrls →
       already.length + newUrls.length ≤ B) ∧
    (∀ (fuel : Nat) (url : String) (s : CrawlState),
       s.urls.length ≤ B → ((crawl c env B fuel url s).1).urls.length ≤ B) ∧
    (∀ (fuel : Nat) (url : String) (s : CrawlState),
       B ≤ s.urls.length → crawl c env B (fuel + 1) url s = (s, [], .ok)) ∧
    (∀ (fuel : Nat) (seeds : List String) (assets : Option (List FsFile))
       (s1 : CrawlState) (tr : List String),
       find_articles c env B fuel seeds assets = some (s1, tr, .ok) →
       s1.urls.length ≤ B) := by
  refine ⟨?_, ?_, ?_, ?_⟩
  · intro page already newUrls hle hok
    have := extract_url_bound c B page already newUrls hok
    rwa [Nat.max_eq_left hle] at this
  · intro fuel url s hle
    have := (crawl_inv c env B fuel url s).1.1
    rwa [Nat.max_eq_left hle] at this
  · intro fuel url s hge
    simp only [crawl]
    rw [if_pos (by omega)]
  · intro fuel seeds assets s1 tr h
    cases seeds with
    | nil => simp [find_articles] at h
    | cons start rest =>
      simp only [find_articles] at h
      rcases hcr : crawl c env B fuel start ⟨load_scrapped_urls assets, [], []⟩
        with ⟨s', tr', o⟩
      rw [hcr] at h
      cases o with
      | ok =>
        simp only [Option.some.injEq, Prod.mk.injEq] at h
        have hs1 := h.1
        have hlen : s'.urls.length ≤ max B (load_scrapped_urls assets).length := by
          have := (crawl_inv c env B fuel start
            ⟨load_scrapped_urls assets, [], []⟩).1.1
          rw [hcr] at this
          exact this
        have hurls : s1.urls = s'.urls.drop (load_scrapped_urls assets).length := by
          rw [← hs1]
        rw [hurls, List.length_drop]
        rcases Nat.le_total B (load_scrapped_urls assets).length with hc | hc
        · rw [Nat.max_eq_right hc] at hlen
          omega
        · rw [Nat.max_eq_left hc] at hlen
          omega
      | netError => simp at h
      | keyError => simp at h
      | stackOverflow => simp at h

/-- Claim C1 witness: concrete instances of all four conjuncts — the
five-link page under budget 3 yields three links, an empty crawl keeps the
frontier at 0 ≤ 3, a crawl from a full frontier stops at once, and a
completed run returns at most 3 URLs. -/
theorem c1_frontier_never_exceeds_budget_witness :
    ([] : List String).length +
      (["http://site.ru/rus/art?anum=1", "http://site.ru/rus/art?anum=2",
        "http://site.ru/rus/art?anum=3"] : List String).length ≤ 3 ∧
    ((crawl siteConsts emptyPageEnv 3 2 seedUrl ⟨[], [], []⟩).1).urls.length ≤ 3 ∧
    crawl siteConsts emptyPageEnv 3 1 seedUrl ⟨["a", "b", "c"], [], []⟩ =
      (⟨["a", "b", "c"], [], []⟩, [], .ok) ∧
    (⟨[], [], []⟩ : CrawlState).urls.length ≤ 3 :=
  ⟨(c1_frontier_never_exceeds_budget siteConsts emptyPageEnv 3).1 fiveLinkPage [] _
      (by decide) rfl,
   (c1_frontier_never_exceeds_budget siteConsts emptyPageEnv 3).2.1 2 seedUrl _
      (by decide),
   (c1_frontier_never_exceeds_budget siteConsts emptyPageEnv 3).2.2.1 0 seedUrl _
      (by decide),
   (c1_frontier_never_exceeds_budget siteConsts emptyPageEnv 3).2.2.2 1 [seedUrl] none
      _ [seedUrl] rfl⟩

/-- Claim C2 (counterexample): with the seed linking to an inner page whose
fetch raises a network error and then to an issue page carrying an
article, the code does not absorb the inner failure: the whole run aborts
with the network error, the issue page is never fetched, and no article is
discovered — the claim's "traversal continues with the remaining links"
is false. -/
theorem c2_inner_fetch_failure_aborts_run :
    (crawl siteConsts innerFailEnv 3 2 seedUrl ⟨[], [], []⟩).2.2 = .netError ∧
    "http://site.ru/rus/b?jnum=1" ∉
      (crawl siteConsts innerFailEnv 3 2 seedUrl ⟨[], [], []⟩).2.1 ∧
    (crawl siteConsts innerFailEnv 3 2 seedUrl ⟨[], [], []⟩).1.urls = [] := by
  refine ⟨rfl, by decide, rfl⟩

/-- Claim C2 (amended): a network error raised by the HTTP library
terminates the (sub)run immediately on any page, seed or inner, with the
frontier unchanged and no further link processed; only a non-success HTTP
status (which still returns a parseable page) is a dead end that traversal
survives.  For the seed this matches the claim: the run ends with no
articles discovered. -/
theorem c2_network_error_terminates_run (c : Consts) (env : Env) (B fuel : Nat)
    (url : String) (s : CrawlState)
    (hb : s.urls.length + 1 ≤ B) (hfe : env.fetch url = .error ()) :
    crawl c env B (fuel + 1) url s = (s, [url], .netError) := by
  simp only [crawl]
  rw [if_neg (by omega), hfe]

/-- Claim C2 witness: under the always-failing web, the crawl of the seed
terminates at once with a network error and an unchanged empty frontier. -/
theorem c2_network_error_terminates_run_witness :
    (⟨[], [], []⟩ : CrawlState).urls.length + 1 ≤ 1 ∧
    failEnv.fetch seedUrl = .error () ∧
    crawl siteConsts failEnv 1 1 seedUrl ⟨[], [], []⟩ =
      (⟨[], [], []⟩, [seedUrl], .netError) :=
  ⟨by decide, rfl,
   c2_network_error_terminates_run siteConsts failEnv 1 0 seedUrl ⟨[], [], []⟩
     (by decide) rfl⟩

/-- Claim C3: the frontier a completed `find_articles` run returns has no
duplicate URL and no URL that `load_scrapped_urls` reported from prior
runs: `_extract_url` skips URLs already accumulated, `find_articles`
preloads the accumulator with the previously scrapped URLs and drops that
prefix before returning. -/
theorem c3_frontier_unique_across_runs (c : Consts) (env : Env) (B fuel : Nat)
    (seeds : List String) (assets : Option (List FsFile))
    (s1 : CrawlState) (tr : List String)
    (h : find_articles c env B fuel seeds assets = some (s1, tr, .ok)) :
    s1.urls.Nodup ∧ ∀ v ∈ s1.urls, v ∉ load_scrapped_urls assets := by
  cases seeds with
  | nil => simp [find_articles] at h
  | cons start rest =>
    simp only [find_articles] at h
    rcases hcr : crawl c env B fuel start ⟨load_scrapped_urls assets, [], []⟩
      with ⟨s', tr', o⟩
    rw [hcr] at h
    cases o with
    | ok =>
      simp only [Option.some.injEq, Prod.mk.injEq] at h
      have hs1 := h.1
      have hdec := (crawl_inv c env B fuel start
        ⟨load_scrapped_urls assets, [], []⟩).1.2.1
      rw [hcr] at hdec
      obtain ⟨add, hadd, hnd, hfresh⟩ := hdec
      have hadd' : s'.urls = load_scrapped_urls assets ++ add := hadd
      have hurls : s1.urls = s'.urls.drop (load_scrapped_urls assets).length := by
        rw [← hs1]
      rw [hurls, hadd', List.drop_left]
      exact ⟨hnd, hfresh⟩
    | netError => simp at h
    | keyError => simp at h
    | stackOverflow => simp at h

/-- Claim C3 witness: a completed concrete run returns an empty frontier,
trivially duplicate-free and disjoint from the (empty) prior record. -/
theorem c3_frontier_unique_across_runs_witness :
    find_articles siteConsts emptyPageEnv 1 1 [seedUrl] none =
      some (⟨[], [], []⟩, [seedUrl], .ok) ∧
    ((⟨[], [], []⟩ : CrawlState).urls.Nodup ∧
     ∀ v ∈ (⟨[], [], []⟩ : CrawlState).urls, v ∉ load_scrapped_urls none) :=
  ⟨rfl,
   c3_frontier_unique_across_runs siteConsts emptyPageEnv 1 1 [seedUrl] none
     ⟨[], [], []⟩ [seedUrl] rfl⟩

/-- Claim C4 (counterexample): the initial `crawl(start_url)` call fetches
the seed without first inserting it into `crawled_urls`, so a seed page
linking back to the seed makes the code fetch the seed twice in one run —
the claim's "every internal URL, including the starting seed URL, is
fetched at most once per run" is false. -/
theorem c4_seed_fetched_twice_counterexample :
    ((crawl siteConsts selfLoopEnv 3 3 seedUrl ⟨[], [], []⟩).2.1).count seedUrl = 2 ∧
    ¬ ((crawl siteConsts selfLoopEnv 3 3 seedUrl ⟨[], [], []⟩).2.1).Nodup := by
  refine ⟨by decide, by decide⟩

/-- Claim C4 (amended): during one `crawl(url)` invocation the visited set
only ever grows, every URL other than the initially crawled one is fetched
at most once, and the initially crawled URL is fetched at most twice (once
by the unguarded initial call, at most once more through a self-link). -/
theorem c4_visited_monotone_fetch_at_most_once (c : Consts) (env : Env)
    (B fuel : Nat) (url : String) (s s' : CrawlState) (tr : List String)
    (o : Outcome) (h : crawl c env B fuel url s = (s', tr, o)) :
    (∀ v ∈ s.crawled_urls, v ∈ s'.crawled_urls) ∧
    (∀ v, v ≠ url → tr.count v ≤ 1) ∧
    tr.count url ≤ 2 := by
  have hinv := crawl_inv c env B fuel url s
  rw [h] at hinv
  have hmono : ∀ v ∈ s.crawled_urls, v ∈ s'.crawled_urls := hinv.1.2.2
  have htr : tr = [] ∨ ∃ tr', tr = url :: tr' ∧ FreshTrace tr' s s' := hinv.2
  refine ⟨hmono, ?_, ?_⟩
  · intro v hv
    rcases htr with htr | ⟨tr', htr, hnd, _⟩
    · rw [htr]
      simp
    · rw [htr]
      have h1 := List.nodup_iff_count_le_one.mp hnd v
      have hcc : (url :: tr').count v = tr'.count v := by
        simp [List.count_cons, hv, Ne.symm hv]
      rw [hcc]
      exact h1
  · rcases htr with htr | ⟨tr', htr, hnd, _⟩
    · rw [htr]
      simp
    · rw [htr, List.count_cons]
      have h1 := List.nodup_iff_count_le_one.mp hnd url
      simp
      omega

/-- Claim C4 witness: on the self-linking seed, the theorem's bounds hold
for the concrete trace — a non-seed URL is fetched at most once, the seed
at most twice. -/
theorem c4_visited_monotone_fetch_at_most_once_witness :
    crawl siteConsts selfLoopEnv 3 3 seedUrl ⟨[], [], []⟩ =
      (⟨[], [seedUrl], []⟩, [seedUrl, seedUrl], .ok) ∧
    ([seedUrl, seedUrl] : List String).count "http://site.ru/rus/other" ≤ 1 ∧
    ([seedUrl, seedUrl] : List String).count seedUrl ≤ 2 :=
  ⟨by decide,
   (c4_visited_monotone_fetch_at_most_once siteConsts selfLoopEnv 3 3 seedUrl
      ⟨[], [], []⟩ ⟨[], [seedUrl], []⟩ [seedUrl, seedUrl] .ok (by decide)).2.1
     "http://site.ru/rus/other" (by decide),
   (c4_visited_monotone_fetch_at_most_once siteConsts selfLoopEnv 3 3 seedUrl
      ⟨[], [], []⟩ ⟨[], [seedUrl], []⟩ [seedUrl, seedUrl] .ok (by decide)).2.2⟩

/-! ## Claims about the state store and id assignment -/

/-- Claim C5 (code evaluation at the failing input): the code takes only
the FIRST character of the metadata file's stem as the article number, so
for the record `10_meta.json` it checks for `1_raw.pdf` instead of
`10_raw.pdf`.  With an assets directory holding `10_meta.json` (url `u10`)
together with its companion artifact `10_raw.pdf`, the claim demands
`["u10"]`, but the code returns `[]` even though the companion named by
the record's id is present; the empty-directory conjunct of the claim does
hold. -/
theorem c5_load_scrapped_urls_first_char_bug :
    load_scrapped_urls none = [] ∧
    load_scrapped_urls assetsTen = [] ∧
    (∃ f ∈ [(⟨"10_meta.json", "u10"⟩ : FsFile), ⟨"10_raw.pdf", ""⟩],
      f.name = "10" ++ "_raw.pdf") := by
  refine ⟨rfl, by decide, ⟨⟨"10_raw.pdf", ""⟩, by decide, by decide⟩⟩

/-- Positions of `article_ids` carry the URL at that position paired with
the position plus the prior count plus one. -/
theorem article_ids_getElem (pre : Nat) (frontier : List String) (i : Nat) :
    (article_ids pre frontier)[i]? =
      (frontier[i]?).map (fun u => (u, i + pre + 1)) := by
  simp only [article_ids, List.getElem?_map, List.getElem?_enum]
  cases frontier[i]? with
  | none => rfl
  | some u => rfl

/-- Every id `article_ids` assigns is strictly above the prior count. -/
theorem article_ids_lower_bound (pre : Nat) (frontier : List String) :
    ∀ e ∈ article_ids pre frontier, pre + 1 ≤ e.2 := by
  intro e he
  simp only [article_ids, List.mem_map] at he
  obtain ⟨⟨i, u⟩, _, rfl⟩ := he
  simp

/-- Claim C6: ids continue the sequence from prior runs — the article at
0-based position `i` of the run's frontier gets id `i` plus the number of
previously persisted articles plus one; with 2 persisted articles the two
new articles get ids 3 and 4; and under the hypothesis that every prior id
is at most the persisted count, every newly assigned id is strictly
greater than every prior id. -/
theorem c6_ids_continue_prior_sequence :
    (∀ (assets : Option (List FsFile)) (frontier : List String) (i : Nat),
       (main_assigned_ids assets frontier)[i]? =
         (frontier[i]?).map (fun u => (u, i + (load_scrapped_urls assets).length + 1))) ∧
    main_assigned_ids assetsTwo ["u3", "u4"] = [("u3", 3), ("u4", 4)] ∧
    (∀ (assets : Option (List FsFile)) (frontier : List String) (prior : List Nat),
       (∀ j ∈ prior, j ≤ (load_scrapped_urls assets).length) →
       ∀ e ∈ main_assigned_ids assets frontier, ∀ j ∈ prior, j < e.2) := by
  refine ⟨?_, by decide, ?_⟩
  · intro assets frontier i
    exact article_ids_getElem _ frontier i
  · intro assets frontier prior hprior e he j hj
    have h1 := article_ids_lower_bound (load_scrapped_urls assets).length frontier e he
    have h2 := hprior j hj
    omega

/-- Claim C6 witness: with the two persisted articles of `assetsTwo` and
prior ids 1 and 2, the article at position 0 receives id 3, which is
strictly greater than the prior id 2. -/
theorem c6_ids_continue_prior_sequence_witness :
    (∀ j ∈ ([1, 2] : List Nat), j ≤ (load_scrapped_urls assetsTwo).length) ∧
    2 < (("u3", 3) : String × Nat).2 :=
  ⟨by decide,
   (c6_ids_continue_prior_sequence).2.2 assetsTwo ["u3", "u4"] [1, 2] (by decide)
     ("u3", 3) (by decide) 2 (by decide)⟩

/-- Appending to a fixed prefix string is injective. -/
theorem string_append_cancel_left (d a b : String) (h : d ++ a = d ++ b) :
    a = b := by
  have hd := congrArg String.data h
  rw [String.data_append, String.data_append] at hd
  exact String.ext (List.append_cancel_left hd)

/-- Claim C9: on a listing document whose numbered rows expose five
distinct article links, with budget 3 and an empty accumulated list,
`_extract_url` returns exactly the first three links in document order,
each resolved against the configured domain. -/
theorem c9_budget_three_selects_first_three (c : Consts) (page : Page)
    (h1 h2 h3 h4 h5 : String)
    (hflat : page.unnrow_links.flatten = [some h1, some h2, some h3, some h4, some h5])
    (ha1 : strStartsWith h1 "?anum" = true) (ha2 : strStartsWith h2 "?anum" = true)
    (ha3 : strStartsWith h3 "?anum" = true) (_ha4 : strStartsWith h4 "?anum" = true)
    (_ha5 : strStartsWith h5 "?anum" = true)
    (hnd : ([h1, h2, h3, h4, h5] : List String).Nodup) :
    extract_url c 3 page [] =
      .ok [c.domain_url ++ h1, c.domain_url ++ h2, c.domain_url ++ h3] := by
  have hinj : ∀ a b : String, (c.domain_url ++ a = c.domain_url ++ b) ↔ a = b :=
    fun a b => ⟨string_append_cancel_left _ a b, fun h => by rw [h]⟩
  simp only [List.nodup_cons, List.mem_cons, List.mem_singleton, List.not_mem_nil,
    not_or] at hnd
  have hd12 : ¬ (h2 = h1) := fun h => hnd.1.1 h.symm
  have hd13 : ¬ (h3 = h1) := fun h => hnd.1.2.1 h.symm
  have hd23 : ¬ (h3 = h2) := fun h => hnd.2.1.1 h.symm
  unfold extract_url
  rw [hflat]
  simp [extractLoop, ha1, ha2, ha3, hinj, hd12, hd13, hd23]

/-- Claim C9 witness: the concrete five-link issue page under budget 3
yields exactly the first three links, resolved against the domain. -/
theorem c9_budget_three_selects_first_three_witness :
    fiveLinkPage.unnrow_links.flatten =
      [some "?anum=1", some "?anum=2", some "?anum=3", some "?anum=4", some "?anum=5"] ∧
    extract_url siteConsts 3 fiveLinkPage [] =
      .ok [siteConsts.domain_url ++ "?anum=1", siteConsts.domain_url ++ "?anum=2",
           siteConsts.domain_url ++ "?anum=3"] :=
  ⟨rfl,
   c9_budget_three_selects_first_three siteConsts fiveLinkPage
     "?anum=1" "?anum=2" "?anum=3" "?anum=4" "?anum=5" rfl
     (by decide) (by decide) (by decide) (by decide) (by decide) (by decide)⟩
